import Mathlib

/-!
Verification development for the `the-orchestration-layer` repository:
a static blog whose logical core is a manifest-generation script
(`scripts/generate-manifest.cjs`, evolved version with date normalization
and sorting) and a client-side rendering pipeline (`App.tsx`,
`components/BlogList.tsx`, `components/BlogPost.tsx`).

The JavaScript/TypeScript code is shallowly embedded below: pure data
transformations become Lean functions, the build script's filesystem
effects become explicit state passing over a small filesystem record,
and JavaScript runtime values (Date objects, JSON documents, fetch
outcomes) become inductive types.
-/

namespace Orchestration

/-! ## Dates

A JavaScript `Date` object is modelled by its UTC calendar components;
`toISOString().slice(0, 10)` then formats exactly those components.
`new Date(str).getTime()` on the normalized `YYYY-MM-DD` strings the
builder emits is modelled by `parseDateMs`, which accepts exactly the
ISO date-only form (with calendar validation, as V8 does) and yields
the epoch-millisecond value; every other string is modelled as an
invalid date (`none`, the JS `NaN` time value). -/

/-! ### String primitives

Kernel-computable embeddings of the JavaScript string operations the
code uses (`slice`, `endsWith`, `split`, …), as structural recursion
over the character list. All strings involved are ASCII, so code
points and UTF-16 units coincide. -/

/-- JS `s.slice(0, n)`. -/
def strTake (s : String) (n : Nat) : String := String.mk (s.data.take n)

/-- Drop the last `n` characters (`s.slice(0, -n)` / regex-anchored
suffix removal). -/
def strDropRight (s : String) (n : Nat) : String :=
  String.mk (s.data.take (s.data.length - n))

/-- JS `s.slice(n)`. -/
def strDrop (s : String) (n : Nat) : String := String.mk (s.data.drop n)

def strLength (s : String) : Nat := s.data.length

def strIsEmpty (s : String) : Bool := s.data.isEmpty

/-- JS `s.endsWith(suffix)`. -/
def strEndsWith (s suffix : String) : Bool := suffix.data.isSuffixOf s.data

/-- JS `s.startsWith(pre)`. -/
def strStartsWith (s p : String) : Bool := p.data.isPrefixOf s.data

def splitLinesAux : List Char → List Char → List (List Char)
  | [], acc => [acc.reverse]
  | c :: cs, acc =>
    if c = '\n' then acc.reverse :: splitLinesAux cs []
    else splitLinesAux cs (c :: acc)

/-- JS `s.split('\n')`. -/
def splitLines (s : String) : List String :=
  (splitLinesAux s.data []).map String.mk

/-- Join with newlines (inverse of `splitLines` on its own output). -/
def joinLines : List String → String
  | [] => ""
  | [l] => l
  | l :: ls => l ++ "\n" ++ joinLines ls

structure UtcDate where
  year : Int
  month : Nat
  day : Nat
deriving DecidableEq

def pad2 (n : Nat) : String :=
  if n < 10 then "0" ++ toString n else toString n

def pad4 (n : Int) : String :=
  if n < 0 then toString n
  else if n < 10 then "000" ++ toString n
  else if n < 100 then "00" ++ toString n
  else if n < 1000 then "0" ++ toString n
  else toString n

/-- The date part of `Date.prototype.toISOString`: `YYYY-MM-DD` from the
UTC calendar components. -/
def toIsoDateString (d : UtcDate) : String :=
  pad4 d.year ++ "-" ++ pad2 d.month ++ "-" ++ pad2 d.day

def isLeapYear (y : Nat) : Bool :=
  (y % 4 == 0 && y % 100 != 0) || y % 400 == 0

def daysInMonth (y : Nat) (m : Nat) : Nat :=
  match m with
  | 1 => 31
  | 2 => if isLeapYear y then 29 else 28
  | 3 => 31
  | 4 => 30
  | 5 => 31
  | 6 => 30
  | 7 => 31
  | 8 => 31
  | 9 => 30
  | 10 => 31
  | 11 => 30
  | 12 => 31
  | _ => 0

/-- Days from the Unix epoch to civil date `(y, m, d)` (proleptic
Gregorian, Howard Hinnant's `days_from_civil` with floor division). -/
def daysFromCivil (y : Int) (m d : Nat) : Int :=
  let yy : Int := if m ≤ 2 then y - 1 else y
  let era : Int := Int.fdiv yy 400
  let yoe : Int := yy - era * 400
  let mp : Int := if m > 2 then (m : Int) - 3 else (m : Int) + 9
  let doy : Int := Int.fdiv (153 * mp + 2) 5 + (d : Int) - 1
  let doe : Int := yoe * 365 + Int.fdiv yoe 4 - Int.fdiv yoe 100 + doy
  era * 146097 + doe - 719468

def digitVal (c : Char) : Nat := c.toNat - 48

/-- Strict `YYYY-MM-DD` parse with calendar-range validation. -/
def parseYmd (s : String) : Option (Nat × Nat × Nat) :=
  match s.data with
  | [y1, y2, y3, y4, h1, m1, m2, h2, d1, d2] =>
    if y1.isDigit && y2.isDigit && y3.isDigit && y4.isDigit &&
        h1 == '-' && m1.isDigit && m2.isDigit && h2 == '-' &&
        d1.isDigit && d2.isDigit then
      let y := digitVal y1 * 1000 + digitVal y2 * 100 + digitVal y3 * 10 + digitVal y4
      let m := digitVal m1 * 10 + digitVal m2
      let d := digitVal d1 * 10 + digitVal d2
      if 1 ≤ m ∧ m ≤ 12 ∧ 1 ≤ d ∧ d ≤ daysInMonth y m then some (y, m, d) else none
    else none
  | _ => none

/-- `new Date(s).getTime()` on the manifest's normalized date strings:
`some` epoch milliseconds for a valid `YYYY-MM-DD`, `none` (JS `NaN`)
otherwise. -/
def parseDateMs (s : String) : Option Int :=
  (parseYmd s).map (fun t => daysFromCivil (t.1 : Int) t.2.1 t.2.2 * 86400000)

/-! ## Front-matter attributes and the Manifest Builder

Embeds the evolved `generate-manifest.cjs`: read the posts directory,
keep the `.md` files, map each through front-matter extraction to a
manifest entry, sort by date descending, write `manifest.json`.
The external `front-matter` package's output (`attributes`) is modelled
as the already-parsed attribute record carried by each directory
entry. -/

/-- The front-matter `date` attribute as the `front-matter`/js-yaml stack
delivers it: a structured `Date` (modelled by its UTC components), a
plain string, or absent (`undefined`). -/
inductive FMDate where
  | dateVal (d : UtcDate)
  | strVal (s : String)
  | absent
deriving DecidableEq

structure FMAttributes where
  title : Option String := none
  date : FMDate := .absent
  slug : Option String := none
  tags : Option (List String) := none
deriving DecidableEq

/-- JS `v || dflt` on an optional string: `undefined` and the empty
string are falsy. -/
def jsOrString (v : Option String) (dflt : String) : String :=
  match v with
  | some s => if strIsEmpty s then dflt else s
  | none => dflt

/-- Date normalization (`generate-manifest.cjs` lines 15-21): a `Date`
object becomes `toISOString().slice(0, 10)`; a truthy non-`Date` value
becomes `String(v).slice(0, 10)`; otherwise `dateStr` stays `''`.
A present empty string is falsy, so it also yields `''`. -/
def normalizeDate : FMDate → String
  | .dateVal d => toIsoDateString d
  | .strVal s => if strIsEmpty s then "" else strTake s 10
  | .absent => ""

/-- `filename.replace(/\.md$/, '')`. -/
def stripMdExt (f : String) : String :=
  if strEndsWith f ".md" then strDropRight f 3 else f

/-- One manifest entry (`PostMetadata` in the spec's data model). -/
structure PostMeta where
  title : String
  date : String
  slug : String
  filename : String
  tags : List String
deriving DecidableEq

/-- The object literal built for each file (`generate-manifest.cjs`
lines 23-29). -/
def mkPostMeta (attrs : FMAttributes) (filename : String) : PostMeta :=
  { title := jsOrString attrs.title filename
    date := normalizeDate attrs.date
    slug := jsOrString attrs.slug (stripMdExt filename)
    filename := filename
    tags := attrs.tags.getD [] }

/-- One file of the posts directory: its on-disk name and the
front-matter attributes its content parses to. -/
structure MdFile where
  name : String
  attrs : FMAttributes
deriving DecidableEq

/-- Insert into a list ordered by the boolean comparator `le`. -/
def insertBy (le : α → α → Bool) (x : α) : List α → List α
  | [] => [x]
  | y :: l => if le x y then x :: y :: l else y :: insertBy le x l

/-- `Array.prototype.sort` with a consistent comparator, modelled as
insertion sort: the output is a permutation of the input on which
adjacent elements satisfy the comparator. -/
def sortBy (le : α → α → Bool) : List α → List α
  | [] => []
  | x :: l => insertBy le x (sortBy le l)

/-- The comparator `(a, b) => new Date(b.date).getTime() - new
Date(a.date).getTime()` as the predicate "a may come before b": true
when `parse b ≤ parse a`, and true whenever either side is an invalid
date (a `NaN` comparator result leaves the pair untouched, i.e. is
treated as equality). -/
def dateDescLE (a b : PostMeta) : Bool :=
  match parseDateMs a.date, parseDateMs b.date with
  | some x, some y => decide (y ≤ x)
  | _, _ => true

/-- The builder core (`generate-manifest.cjs` lines 9-33): filter the
directory listing to `.md` names, build an entry per file, sort by date
descending. -/
def generateManifest (dir : List MdFile) : List PostMeta :=
  sortBy dateDescLE
    ((dir.filter (fun f => strEndsWith f.name ".md")).map (fun f => mkPostMeta f.attrs f.name))

/-! ## The builder as a process over a filesystem -/

/-- The slice of the filesystem the script touches: whether
`readdirSync(postsDir)` succeeds, the directory contents, and the
manifest destination file. -/
structure FileSystem where
  dirReadable : Bool
  dir : List MdFile
  manifestFile : Option (List PostMeta)
deriving DecidableEq

/-- Running the script: `readdirSync` either throws (unreadable
directory: the uncaught exception aborts the process before any write)
or the pipeline runs to the `writeFileSync` that overwrites the
destination. The `Except` error carries the printed diagnostic. -/
def runManifestBuilder (fs : FileSystem) : Except String Unit × FileSystem :=
  if fs.dirReadable then
    (Except.ok (), { fs with manifestFile := some (generateManifest fs.dir) })
  else
    (Except.error "EACCES: permission denied, scandir postsDir", fs)

/-- Node exit status of the run: 0 on success, 1 on an uncaught
exception. -/
def builderExitCode (fs : FileSystem) : Nat :=
  match (runManifestBuilder fs).1 with
  | Except.ok _ => 0
  | Except.error _ => 1

/-! ## JSON shapes of the manifest (builder output vs. consumers)

`generate-manifest.cjs` writes `JSON.stringify(posts)` — a raw JSON
array. The home page (`App.tsx` lines 26-31) reads `manifest.posts`,
expecting a wrapped object; `BlogList.tsx` (lines 19-21) uses the
parsed document itself as the posts array. A tiny JSON value type is
enough to express both shapes and both consumers. -/

inductive Json where
  | jstr (s : String)
  | jarr (xs : List Json)
  | jobj (fields : List (String × Json))

/-- JSON encoding of one manifest entry, field for field as
`JSON.stringify` lays it out. -/
def encodePostMeta (p : PostMeta) : Json :=
  Json.jobj [("title", Json.jstr p.title), ("date", Json.jstr p.date),
    ("slug", Json.jstr p.slug), ("filename", Json.jstr p.filename),
    ("tags", Json.jarr (p.tags.map Json.jstr))]

/-- What the builder writes: the raw JSON array. -/
def rawManifestJson (posts : List PostMeta) : Json :=
  Json.jarr (posts.map encodePostMeta)

/-- The builder end to end: directory listing to serialized manifest. -/
def builderJsonOutput (dir : List MdFile) : Json :=
  rawManifestJson (generateManifest dir)

/-- The alternative shape from the repository's history: the array
wrapped in an object under the `posts` key. -/
def wrappedManifestJson (posts : List PostMeta) : Json :=
  Json.jobj [("posts", Json.jarr (posts.map encodePostMeta))]

/-- JS property access `doc.k`: `undefined` (`none`) unless the value
is an object carrying the key. -/
def getField (j : Json) (k : String) : Option Json :=
  match j with
  | Json.jobj fields => fields.lookup k
  | _ => none

/-- The `date` key the home page's comparator extracts from a manifest
entry (`new Date(b.date).getTime()`). -/
def jsonDateKey (j : Json) : Option Int :=
  match getField j "date" with
  | some (Json.jstr s) => parseDateMs s
  | _ => none

def jsonDateDescLE (a b : Json) : Bool :=
  match jsonDateKey a, jsonDateKey b with
  | some x, some y => decide (y ≤ x)
  | _, _ => true

/-- The home page consumer (`App.tsx` lines 24-35):
`manifest.posts.sort(byDateDesc).slice(0, 3)` inside `try`/`catch`.
When `manifest.posts` is not an array the expression throws and the
`catch` leaves the recent-posts state empty — the consumer obtains no
entries (`none`). -/
def homeRecentPosts (j : Json) : Option (List Json) :=
  match getField j "posts" with
  | some (Json.jarr xs) => some ((sortBy jsonDateDescLE xs).take 3)
  | _ => none

/-- The blog-list consumer (`BlogList.tsx` lines 17-30):
`setPosts(manifest)` and then array operations on it. A non-array
document makes `posts.flatMap`/`posts.filter` throw during render —
the consumer obtains no entries (`none`). -/
def blogListPosts (j : Json) : Option (List Json) :=
  match j with
  | Json.jarr xs => some xs
  | _ => none

/-! ## Tag filtering (`BlogList.tsx` lines 29-30) -/

/-- `listPosts` filtering: with a tag from the route, keep the entries
whose `tags` array `includes` that exact string; with no tag, the
manifest as fetched. -/
def filteredPosts (posts : List PostMeta) (tag : Option String) : List PostMeta :=
  match tag with
  | some t => posts.filter (fun p => p.tags.contains t)
  | none => posts

/-! ## Fenced-code rendering (`BlogPost.tsx`, `code` component)

`/language-(\w+)/.exec(className || '')` — leftmost match of the
literal `language-` followed by a maximal nonempty run of word
characters; on a match the block goes through `SyntaxHighlighter` with
the captured word as the language, otherwise it stays a plain `code`
element. -/

/-- JS `\w`: ASCII letters, digits and underscore. -/
def isWordChar (c : Char) : Bool := c.isAlphanum || c == '_'

def langMarker : List Char := ['l', 'a', 'n', 'g', 'u', 'a', 'g', 'e', '-']

/-- `/language-(\w+)/.exec(s)`, returning the captured group: scan for
the leftmost position where the literal marker is followed by at least
one word character, and capture the maximal word-character run. -/
def execLanguageRegex : List Char → Option (List Char)
  | [] => none
  | c :: cs =>
    if langMarker.isPrefixOf (c :: cs) then
      if (((c :: cs).drop 9).takeWhile isWordChar).isEmpty then execLanguageRegex cs
      else some (((c :: cs).drop 9).takeWhile isWordChar)
    else execLanguageRegex cs

def extractLang (className : String) : Option String :=
  (execLanguageRegex className.data).map (fun cs => String.mk cs)

/-- Specification-side reading of "the class name carries a language
tag": somewhere in the string, `language-` is followed by a word
character. -/
def hasLanguageTag (cs : List Char) : Prop :=
  ∃ pre c post, cs = pre ++ langMarker ++ c :: post ∧ isWordChar c = true

/-- `String(children).replace(/\n$/, '')`. -/
def stripTrailingNewline (s : String) : String :=
  if strEndsWith s "\n" then strDropRight s 1 else s

inductive RenderedCode where
  | highlighted (language : String) (content : String)
  | plain (className : Option String) (content : String)
deriving DecidableEq

/-- The `code` renderer (`BlogPost.tsx` lines 147-162): match on
`className || ''`; highlighted with the captured language (children
with one trailing newline stripped) or a plain `code` element. -/
def renderCode (className : Option String) (children : String) : RenderedCode :=
  match extractLang (className.getD "") with
  | some lang => RenderedCode.highlighted lang (stripTrailingNewline children)
  | none => RenderedCode.plain className children

/-! ## Post loading (`BlogPost.tsx` lines 79-89)

`fetchPost` fetches `src/posts/${slug}.md`, runs the `front-matter`
split on the response text, and sets the post state from the parsed
attributes and body. The `front-matter` package's delimiter handling
is embedded textually: a leading `---` line opens the block, the next
`---` line closes it, `key: value` lines in between become attributes
(double-quoted values unquoted), and the body is everything after the
closing line. A document that does not open with the delimiter has no
front-matter: empty attributes, body = whole text. -/

def unquote (s : String) : String :=
  if decide (2 ≤ strLength s) && strStartsWith s "\"" && strEndsWith s "\"" then
    strDropRight (strDrop s 1) 1
  else s

def splitAtColonSpace : List Char → Option (List Char × List Char)
  | [] => none
  | ':' :: ' ' :: rest => some ([], rest)
  | c :: rest => (splitAtColonSpace rest).map (fun p => (c :: p.1, p.2))

/-- A `key: value` attribute line, split at the first `: `. -/
def parseAttrLine (line : String) : Option (String × String) :=
  (splitAtColonSpace line.data).map
    (fun p => (String.mk p.1, unquote (String.mk p.2)))

structure ParsedFM where
  attrs : List (String × String)
  body : String
deriving DecidableEq

/-- The `front-matter` split on the raw document text. -/
def frontMatterSplit (text : String) : ParsedFM :=
  match splitLines text with
  | "---" :: rest =>
    let fmLines := rest.takeWhile (fun l => l ≠ "---")
    match rest.dropWhile (fun l => l ≠ "---") with
    | _ :: bodyLines =>
      { attrs := fmLines.filterMap parseAttrLine
        body := joinLines bodyLines }
    | [] => { attrs := [], body := text }
  | _ => { attrs := [], body := text }

/-- The runtime-only `Post` record set by `fetchPost`; `title` and
`date` are `undefined` (`none`) when the attributes omit them. -/
structure Post where
  title : Option String
  date : Option String
  content : String
deriving DecidableEq

/-- `loadPost` against a static file server holding `files` (path
suffix to content): fetch `${slug}.md`, split front-matter, build the
post. `none` when no such file is served (the fetch rejects and the
state is never set). -/
def fetchPost (files : List (String × String)) (slug : String) : Option Post :=
  match files.lookup (slug ++ ".md") with
  | none => none
  | some md =>
    let p := frontMatterSplit md
    some { title := p.attrs.lookup "title", date := p.attrs.lookup "date", content := p.body }

/-- Outcome of the `fetch` call: a rejected promise (network error) or
an HTTP response with a status and body text. -/
inductive FetchOutcome where
  | networkError
  | response (status : Nat) (body : String)
deriving DecidableEq

/-- The post state after `fetchPost` runs on an outcome: a rejection
propagates out of the async function before `setPost`, leaving the
state `null`; ANY response — the code never consults `res.ok` or the
status — has its text front-matter-split and set as the post. -/
def loadPostState (o : FetchOutcome) : Option Post :=
  match o with
  | FetchOutcome.networkError => none
  | FetchOutcome.response _ body =>
    let p := frontMatterSplit body
    some { title := p.attrs.lookup "title", date := p.attrs.lookup "date", content := p.body }

inductive View where
  | loading
  | article (p : Post)
deriving DecidableEq

/-- `if (!post) return <div>Loading...</div>` — the view rendered from
the post state. -/
def renderView (st : Option Post) : View :=
  match st with
  | none => View.loading
  | some p => View.article p

/-! ## Lemmas about the comparator sort -/

theorem insertBy_perm {α : Type _} (le : α → α → Bool) (x : α) (l : List α) :
    (insertBy le x l).Perm (x :: l) := by
  induction l with
  | nil => simp [insertBy]
  | cons y l ih =>
    rw [insertBy]
    by_cases h : le x y = true
    · simp [h]
    · simp only [if_neg h]
      exact (ih.cons y).trans (List.Perm.swap x y l)

theorem sortBy_perm {α : Type _} (le : α → α → Bool) (l : List α) :
    (sortBy le l).Perm l := by
  induction l with
  | nil => simp [sortBy]
  | cons x l ih => exact (insertBy_perm le x (sortBy le l)).trans (ih.cons x)

theorem insertBy_chain' {α : Type _} {le : α → α → Bool}
    (htot : ∀ a b, le a b = true ∨ le b a = true) (x : α) (l : List α)
    (hl : l.Chain' (fun a b => le a b = true)) :
    (insertBy le x l).Chain' (fun a b => le a b = true) := by
  induction l with
  | nil => simp [insertBy]
  | cons y l ih =>
    rw [insertBy]
    by_cases h : le x y = true
    · simp only [if_pos h]
      exact List.Chain'.cons h hl
    · simp only [if_neg h]
      have hyx : le y x = true := (htot x y).resolve_left h
      refine List.chain'_cons'.mpr ⟨?_, ih hl.tail⟩
      intro z hz
      cases l with
      | nil =>
        simp [insertBy] at hz
        subst hz; exact hyx
      | cons w l' =>
        rw [insertBy] at hz
        by_cases hxw : le x w = true
        · simp only [if_pos hxw, List.head?_cons, Option.mem_def, Option.some.injEq] at hz
          subst hz; exact hyx
        · simp only [if_neg hxw, List.head?_cons, Option.mem_def, Option.some.injEq] at hz
          subst hz
          exact (List.chain'_cons.mp hl).1

theorem sortBy_chain' {α : Type _} {le : α → α → Bool}
    (htot : ∀ a b, le a b = true ∨ le b a = true) (l : List α) :
    (sortBy le l).Chain' (fun a b => le a b = true) := by
  induction l with
  | nil => simp [sortBy]
  | cons x l ih => exact insertBy_chain' htot x (sortBy le l) ih

theorem dateDescLE_total (a b : PostMeta) :
    dateDescLE a b = true ∨ dateDescLE b a = true := by
  rcases hx : parseDateMs a.date with _ | x <;> rcases hy : parseDateMs b.date with _ | y <;>
    simp [dateDescLE, hx, hy]
  exact Int.le_total y x

/-! ## Lemmas about the language-tag regular expression -/

theorem execLanguageRegex_cons (c : Char) (cs : List Char) :
    execLanguageRegex (c :: cs) =
      if langMarker.isPrefixOf (c :: cs) then
        if (((c :: cs).drop 9).takeWhile isWordChar).isEmpty then execLanguageRegex cs
        else some (((c :: cs).drop 9).takeWhile isWordChar)
      else execLanguageRegex cs := rfl

/-- Soundness of the regex scan: a captured group is a nonempty run of
word characters occurring right after the literal marker somewhere in
the input. -/
theorem execLanguageRegex_sound :
    ∀ cs w : List Char, execLanguageRegex cs = some w →
      w ≠ [] ∧ (∀ x ∈ w, isWordChar x = true) ∧
        ∃ pre post, cs = pre ++ langMarker ++ w ++ post := by
  intro cs
  induction cs with
  | nil => intro w h; simp [execLanguageRegex] at h
  | cons c cs ih =>
    intro w h
    rw [execLanguageRegex_cons] at h
    by_cases hp : langMarker.isPrefixOf (c :: cs) = true
    · rw [if_pos hp] at h
      by_cases he : (((c :: cs).drop 9).takeWhile isWordChar).isEmpty = true
      · rw [if_pos he] at h
        obtain ⟨hne, hall, pre, post, hdec⟩ := ih w h
        exact ⟨hne, hall, c :: pre, post, by rw [hdec]; simp⟩
      · rw [if_neg he] at h
        obtain ⟨t, ht⟩ := List.isPrefixOf_iff_prefix.mp hp
        have hdrop : (c :: cs).drop 9 = t := by
          rw [← ht]; exact List.drop_left' rfl
        rw [hdrop] at h he
        have hw : w = t.takeWhile isWordChar := by
          injection h with h'; exact h'.symm
        subst hw
        refine ⟨?_, fun x hx => List.mem_takeWhile_imp hx,
          [], t.dropWhile isWordChar, ?_⟩
        · intro hnil
          exact he (by rw [hnil]; rfl)
        · rw [List.nil_append, ← ht, List.append_assoc, List.takeWhile_append_dropWhile]
    · rw [if_neg hp] at h
      obtain ⟨hne, hall, pre, post, hdec⟩ := ih w h
      exact ⟨hne, hall, c :: pre, post, by rw [hdec]; simp⟩

theorem execLanguageRegex_complete_aux :
    ∀ (pre : List Char) (c : Char) (post : List Char), isWordChar c = true →
      (execLanguageRegex (pre ++ langMarker ++ c :: post)).isSome = true := by
  intro pre
  induction pre with
  | nil =>
    intro c post hc
    rw [List.nil_append]
    rw [show langMarker ++ c :: post =
      'l' :: ('a' :: 'n' :: 'g' :: 'u' :: 'a' :: 'g' :: 'e' :: '-' :: (c :: post)) from rfl]
    rw [execLanguageRegex_cons]
    rw [if_pos (show langMarker.isPrefixOf
      ('l' :: ('a' :: 'n' :: 'g' :: 'u' :: 'a' :: 'g' :: 'e' :: '-' :: (c :: post))) = true from rfl)]
    rw [show ('l' :: ('a' :: 'n' :: 'g' :: 'u' :: 'a' :: 'g' :: 'e' :: '-' :: (c :: post))).drop 9 =
      c :: post from rfl]
    rw [List.takeWhile_cons_of_pos hc]
    simp
  | cons p pre' ih =>
    intro c post hc
    rw [show (p :: pre') ++ langMarker ++ c :: post =
      p :: (pre' ++ langMarker ++ c :: post) from by simp]
    rw [execLanguageRegex_cons]
    by_cases hp : langMarker.isPrefixOf (p :: (pre' ++ langMarker ++ c :: post)) = true
    · rw [if_pos hp]
      by_cases he :
          (((p :: (pre' ++ langMarker ++ c :: post)).drop 9).takeWhile isWordChar).isEmpty = true
      · rw [if_pos he]; exact ih c post hc
      · rw [if_neg he]; rfl
    · rw [if_neg hp]; exact ih c post hc

/-- Completeness of the regex scan: an occurrence of the marker
followed by a word character guarantees a match. -/
theorem execLanguageRegex_complete (cs : List Char) (h : hasLanguageTag cs) :
    (execLanguageRegex cs).isSome = true := by
  obtain ⟨pre, c, post, hdec, hc⟩ := h
  subst hdec
  exact execLanguageRegex_complete_aux pre c post hc

/-! ## The claims -/

/-- C1: the manifest produced by the Manifest Builder is sorted by date
descending — for every pair of adjacent entries `(i, i+1)` of the
output, whenever both normalized dates parse, the parsed date of entry
`i` is greater than or equal to the parsed date of entry `i+1`. -/
theorem claim1_manifest_sorted_by_date_desc (dir : List MdFile) :
    (generateManifest dir).Chain'
      (fun a b => ∀ x y, parseDateMs a.date = some x → parseDateMs b.date = some y → y ≤ x) := by
  have h : (generateManifest dir).Chain' (fun a b => dateDescLE a b = true) := by
    unfold generateManifest
    exact sortBy_chain' dateDescLE_total _
  refine List.Chain'.imp ?_ h
  intro a b hab x y hx hy
  simp only [dateDescLE, hx, hy, decide_eq_true_eq] at hab
  exact hab

theorem claim1_witness :
    (generateManifest [⟨"a.md", { date := FMDate.strVal "2025-01-01" }⟩,
        ⟨"b.md", { date := FMDate.strVal "2025-06-01" }⟩]).Chain'
      (fun a b => ∀ x y, parseDateMs a.date = some x → parseDateMs b.date = some y → y ≤ x) :=
  claim1_manifest_sorted_by_date_desc _

/-- C2: date normalization — a file of the source directory gets a
manifest entry whose date field is, for a structured calendar value,
its UTC components formatted `YYYY-MM-DD`; for a text value, the first
10 characters verbatim with no parsing or validation; and empty when
absent. Every case is total: malformed date text raises no error. -/
theorem claim2_date_normalization (dir : List MdFile) (f : MdFile)
    (hmem : f ∈ dir) (hmd : strEndsWith f.name ".md" = true) :
    mkPostMeta f.attrs f.name ∈ generateManifest dir ∧
      (∀ d, f.attrs.date = FMDate.dateVal d →
        (mkPostMeta f.attrs f.name).date =
          pad4 d.year ++ "-" ++ pad2 d.month ++ "-" ++ pad2 d.day) ∧
      (∀ s, f.attrs.date = FMDate.strVal s →
        (mkPostMeta f.attrs f.name).date = strTake s 10) ∧
      (f.attrs.date = FMDate.absent → (mkPostMeta f.attrs f.name).date = "") := by
  refine ⟨?_, ?_, ?_, ?_⟩
  · refine (sortBy_perm _ _).mem_iff.mpr (List.mem_map.mpr ⟨f, ?_, rfl⟩)
    exact List.mem_filter.mpr ⟨hmem, hmd⟩
  · intro d hd
    simp [mkPostMeta, normalizeDate, hd, toIsoDateString]
  · intro s hs
    simp only [mkPostMeta, normalizeDate, hs]
    by_cases hemp : strIsEmpty s = true
    · rw [if_pos hemp]
      have hdata : s.data = [] := by
        simpa [strIsEmpty, List.isEmpty_iff] using hemp
      simp [strTake, hdata]
    · rw [if_neg hemp]
  · intro ha
    simp [mkPostMeta, normalizeDate, ha]

theorem claim2_witness :
    mkPostMeta { date := FMDate.dateVal ⟨2025, 1, 2⟩ } "p.md" ∈
        generateManifest [⟨"p.md", { date := FMDate.dateVal ⟨2025, 1, 2⟩ }⟩] ∧
      (mkPostMeta { date := FMDate.dateVal ⟨2025, 1, 2⟩ } "p.md").date = "2025-01-02" := by
  have h := claim2_date_normalization [⟨"p.md", { date := FMDate.dateVal ⟨2025, 1, 2⟩ }⟩]
    ⟨"p.md", { date := FMDate.dateVal ⟨2025, 1, 2⟩ }⟩ (by decide) (by decide)
  exact ⟨h.1, (h.2.1 ⟨2025, 1, 2⟩ rfl).trans (by decide)⟩

/-- C3: a markdown file with no front-matter block (all attributes
absent) yields a manifest entry whose title is the filename, whose slug
is the filename with the `.md` extension stripped, whose tags are
empty and whose date is the empty string; missing front-matter is not
an error. -/
theorem claim3_no_frontmatter_defaults (dir : List MdFile) (fn : String)
    (hmem : MdFile.mk fn {} ∈ dir) (hmd : strEndsWith fn ".md" = true) :
    mkPostMeta {} fn ∈ generateManifest dir ∧
      (mkPostMeta {} fn).title = fn ∧
      (mkPostMeta {} fn).slug = strDropRight fn 3 ∧
      (mkPostMeta {} fn).tags = [] ∧
      (mkPostMeta {} fn).date = "" ∧
      (mkPostMeta {} fn).filename = fn := by
  refine ⟨?_, rfl, ?_, rfl, rfl, rfl⟩
  · refine (sortBy_perm _ _).mem_iff.mpr (List.mem_map.mpr ⟨⟨fn, {}⟩, ?_, rfl⟩)
    exact List.mem_filter.mpr ⟨hmem, hmd⟩
  · show jsOrString none (stripMdExt fn) = strDropRight fn 3
    simp [jsOrString, stripMdExt, hmd]

theorem claim3_witness :
    mkPostMeta {} "hello.md" ∈ generateManifest [⟨"hello.md", {}⟩] ∧
      (mkPostMeta {} "hello.md").title = "hello.md" ∧
      (mkPostMeta {} "hello.md").slug = strDropRight "hello.md" 3 ∧
      (mkPostMeta {} "hello.md").tags = [] ∧
      (mkPostMeta {} "hello.md").date = "" ∧
      (mkPostMeta {} "hello.md").filename = "hello.md" :=
  claim3_no_frontmatter_defaults [⟨"hello.md", {}⟩] "hello.md" (by decide) (by decide)

/-- C4: `listPosts` with a tag filter retains exactly the entries whose
tag list contains that exact tag, in the manifest's existing order (a
sublist — never re-sorted); a tag present on exactly `n` entries
returns exactly `n` entries, each containing the tag; with no filter
the manifest is returned unchanged. -/
theorem claim4_tag_filter (posts : List PostMeta) (t : String) (n : Nat)
    (hn : posts.countP (fun p => p.tags.contains t) = n) :
    (filteredPosts posts (some t)).length = n ∧
      (∀ p, p ∈ filteredPosts posts (some t) ↔ p ∈ posts ∧ p.tags.contains t = true) ∧
      (filteredPosts posts (some t)).Sublist posts ∧
      filteredPosts posts none = posts := by
  refine ⟨?_, ?_, ?_, rfl⟩
  · show (posts.filter (fun p => p.tags.contains t)).length = n
    rw [← List.countP_eq_length_filter]
    exact hn
  · intro p
    exact List.mem_filter
  · exact List.filter_sublist posts

theorem claim4_witness :
    (filteredPosts
        [{ title := "a", date := "2025-06-01", slug := "a", filename := "a.md", tags := ["azure", "devops"] },
          { title := "b", date := "2025-05-01", slug := "b", filename := "b.md", tags := ["devops"] },
          { title := "c", date := "2025-04-01", slug := "c", filename := "c.md", tags := ["azure"] }]
        (some "azure")).length = 2 :=
  (claim4_tag_filter _ "azure" 2 (by decide)).1

/-- C5: round-trip through the post file format — a file whose
front-matter declares title `"X"`, date `"2025-01-02"`, slug `"x"` and
whose body is `"Hello"` loads via `loadPost("x")` as title `"X"`, date
`"2025-01-02"`, content `"Hello"` (front-matter block stripped). -/
theorem claim5_roundtrip :
    fetchPost [("x.md", "---\ntitle: \"X\"\ndate: \"2025-01-02\"\nslug: \"x\"\n---\nHello")] "x" =
      some { title := some "X", date := some "2025-01-02", content := "Hello" } := rfl

/-- C6: the raw-array and wrapped-object manifest shapes are not
wire-compatible with each other's consumer — the builder's raw JSON
array yields no post entries for the wrapped-object consumer (the home
page's `manifest.posts`), a wrapped object yields no entries for the
raw-array consumer (the blog list), while each shape serves its own
consumer. -/
theorem claim6_shapes_incompatible (dir : List MdFile) (posts : List PostMeta) :
    homeRecentPosts (builderJsonOutput dir) = none ∧
      blogListPosts (wrappedManifestJson posts) = none ∧
      blogListPosts (builderJsonOutput dir) =
        some ((generateManifest dir).map encodePostMeta) ∧
      (homeRecentPosts (wrappedManifestJson posts)).isSome = true := by
  refine ⟨rfl, rfl, rfl, ?_⟩
  simp [homeRecentPosts, wrappedManifestJson, getField]

theorem claim6_witness :
    homeRecentPosts (builderJsonOutput [⟨"a.md", {}⟩]) = none ∧
      blogListPosts (wrappedManifestJson [mkPostMeta {} "a.md"]) = none ∧
      blogListPosts (builderJsonOutput [⟨"a.md", {}⟩]) =
        some ((generateManifest [⟨"a.md", {}⟩]).map encodePostMeta) ∧
      (homeRecentPosts (wrappedManifestJson [mkPostMeta {} "a.md"])).isSome = true :=
  claim6_shapes_incompatible [⟨"a.md", {}⟩] [mkPostMeta {} "a.md"]

/-- C7: an unreadable source directory makes the builder abort with a
non-zero exit and a printed diagnostic, and no partial manifest is
written — the filesystem, the destination file included, is returned
unmodified because the directory read precedes any write. -/
theorem claim7_unreadable_dir_aborts (fs : FileSystem) (h : fs.dirReadable = false) :
    builderExitCode fs ≠ 0 ∧
      (runManifestBuilder fs).1 =
        Except.error "EACCES: permission denied, scandir postsDir" ∧
      (runManifestBuilder fs).2 = fs := by
  simp [builderExitCode, runManifestBuilder, h]

theorem claim7_witness :
    builderExitCode ⟨false, [⟨"a.md", {}⟩], some []⟩ ≠ 0 ∧
      (runManifestBuilder ⟨false, [⟨"a.md", {}⟩], some []⟩).1 =
        Except.error "EACCES: permission denied, scandir postsDir" ∧
      (runManifestBuilder ⟨false, [⟨"a.md", {}⟩], some []⟩).2 = ⟨false, [⟨"a.md", {}⟩], some []⟩ :=
  claim7_unreadable_dir_aborts ⟨false, [⟨"a.md", {}⟩], some []⟩ rfl

/-- C8 counterexample: a 404 response does not leave the view loading.
The code never consults the response status, so the 404 page's text is
front-matter-split and set as the post — refuting, at this concrete
input, that a failed fetch (404 included) never resolves a post and
leaves the view loading. -/
theorem claim8_counterexample :
    loadPostState (FetchOutcome.response 404 "<html>Not Found</html>") =
        some { title := none, date := none, content := "<html>Not Found</html>" } ∧
      renderView (loadPostState (FetchOutcome.response 404 "<html>Not Found</html>")) ≠
        View.loading := by
  exact ⟨rfl, by decide⟩

/-- C8 amended: when the fetch rejects (network error), the post state
is never set and the view remains in the loading state indefinitely
with no user-visible error; an HTTP error response such as a 404 is
not detected — every response resolves a post built from its body
text. -/
theorem claim8_amended_fetch_failure :
    loadPostState FetchOutcome.networkError = none ∧
      renderView (loadPostState FetchOutcome.networkError) = View.loading ∧
      ∀ status body, (loadPostState (FetchOutcome.response status body)).isSome = true := by
  refine ⟨rfl, rfl, ?_⟩
  intro status body
  simp [loadPostState]

theorem claim8_witness :
    (loadPostState (FetchOutcome.response 500 "oops")).isSome = true :=
  claim8_amended_fetch_failure.2.2 500 "oops"

/-- C9: a fenced code block whose class name carries a `language-<word>`
tag is rendered through the syntax highlighter with the captured
language — a nonempty all-word-character run occurring right after the
`language-` marker — and a block without such a tag (a missing class
name included) is rendered as a plain code element. -/
theorem claim9_code_block_rendering (className children : String) :
    (∀ lang, extractLang className = some lang →
        renderCode (some className) children =
          RenderedCode.highlighted lang (stripTrailingNewline children)) ∧
      (extractLang className = none →
        renderCode (some className) children = RenderedCode.plain (some className) children) ∧
      ((extractLang className).isSome = true ↔ hasLanguageTag className.data) ∧
      (∀ lang, extractLang className = some lang →
        lang ≠ "" ∧ (∀ ch ∈ lang.data, isWordChar ch = true) ∧
          ∃ pre post, className.data = pre ++ langMarker ++ lang.data ++ post) ∧
      renderCode none children = RenderedCode.plain none children := by
  refine ⟨?_, ?_, ?_, ?_, rfl⟩
  · intro lang h
    simp [renderCode, h]
  · intro h
    simp [renderCode, h]
  · rw [show (extractLang className).isSome = (execLanguageRegex className.data).isSome from by
      simp [extractLang]]
    constructor
    · intro h
      obtain ⟨w, hw⟩ := Option.isSome_iff_exists.mp h
      obtain ⟨hne, hall, pre, post, hdec⟩ := execLanguageRegex_sound className.data w hw
      obtain ⟨ch, w', rfl⟩ := List.exists_cons_of_ne_nil hne
      exact ⟨pre, ch, w' ++ post, by rw [hdec]; simp, hall ch (by simp)⟩
    · exact execLanguageRegex_complete className.data
  · intro lang h
    rcases hexec : execLanguageRegex className.data with _ | w
    · simp [extractLang, hexec] at h
    · have hlang : lang = String.mk w := by
        simp [extractLang, hexec] at h
        exact h.symm
      subst hlang
      obtain ⟨hne, hall, pre, post, hdec⟩ := execLanguageRegex_sound className.data w hexec
      refine ⟨?_, hall, pre, post, hdec⟩
      intro hempty
      exact hne (congrArg String.data hempty)

theorem claim9_witness :
    renderCode (some "language-js") "const x=1;\n" = RenderedCode.highlighted "js" "const x=1;" ∧
      renderCode (some "nohighlight") "y" = RenderedCode.plain (some "nohighlight") "y" := by
  constructor
  · exact ((claim9_code_block_rendering "language-js" "const x=1;\n").1 "js" rfl).trans (by decide)
  · exact (claim9_code_block_rendering "nohighlight" "y").2.1 rfl

/-- C10: the builder includes exactly the files of the source directory
whose names end in `.md`, one entry per such file, recording each
on-disk name verbatim in the filename field — the manifest's filename
column is a permutation of the `.md` names of the listing, and every
entry's filename ends in `.md`. -/
theorem claim10_manifest_files (dir : List MdFile) :
    ((generateManifest dir).map (fun e => e.filename)).Perm
        ((dir.filter (fun f => strEndsWith f.name ".md")).map (fun f => f.name)) ∧
      ∀ e ∈ generateManifest dir, strEndsWith e.filename ".md" = true := by
  constructor
  · have hperm := ((sortBy_perm dateDescLE
      ((dir.filter (fun f => strEndsWith f.name ".md")).map
        (fun f => mkPostMeta f.attrs f.name)))).map (fun e => e.filename)
    refine hperm.trans ?_
    rw [List.map_map]
    exact List.Perm.refl _
  · intro e he
    have hmem := (sortBy_perm dateDescLE _).mem_iff.mp he
    obtain ⟨f, hf, rfl⟩ := List.mem_map.mp hmem
    exact (List.mem_filter.mp hf).2

theorem claim10_witness :
    ((generateManifest [⟨"a.md", {}⟩, ⟨"notes.txt", {}⟩, ⟨"b.md", {}⟩]).map
        (fun e => e.filename)).Perm
      (([⟨"a.md", {}⟩, ⟨"notes.txt", {}⟩, ⟨"b.md", {}⟩].filter
        (fun f : MdFile => strEndsWith f.name ".md")).map (fun f => f.name)) :=
  (claim10_manifest_files [⟨"a.md", {}⟩, ⟨"notes.txt", {}⟩, ⟨"b.md", {}⟩]).1

end Orchestration
